import Mathlib

/-!
Verification of the H2_ALSH repository's core algorithms against its
natural-language specification.

The development shallowly embeds the C++ sources:
* `src/srp_lsh.cc`   — sign-random-projection hashing: `bit_count`,
  `compress_hash_code` (bit packing), `table_lookup` (Hamming scoring);
* `src/h2_alsh.cc`   — norm-blocking transform: `bulkload` (block forming
  with the equal-norm lift) and the block-level stop rule of `kmip`;
* `src/l2_alsh.cc`   — the global asymmetric transform of L2-ALSH.

Machine integers are embedded as `Nat` (with remarks where C wraparound
could in principle differ), floating-point arithmetic as real arithmetic.
The external top-k accumulator (`pri_queue.cc`, not part of the sources)
is embedded abstractly through its §6 contract.
-/

namespace H2ALSH

/-! ## Popcount utilities (src/srp_lsh.cc) -/

/-- Number of 1 bits among the low `w` bits of `x` (the reference meaning of
"population count of a `w`-bit value"). -/
def onesCount (w : ℕ) (x : ℕ) : ℕ :=
  (List.range w).countP (fun j => x.testBit j)

/-- Embedding of `SRP_LSH::bit_count` (src/srp_lsh.cc lines 76-81).
The C function computes on `uint32_t`; for the arguments it is used with
(table indices below `2^16`) the two subtractions never underflow, so plain
`Nat` subtraction agrees with the 32-bit machine subtraction. -/
def bit_count (x : ℕ) : ℕ :=
  let num := x - ((x >>> 1) &&& 0o33333333333) - ((x >>> 2) &&& 0o11111111111)
  ((num + (num >>> 3)) &&& 0o30707070707) % 63

/-- Embedding of the lookup table `table16_` built in the `SRP_LSH`
constructor (src/srp_lsh.cc lines 40-44): entry `v` stores `bit_count v`. -/
def table16 (v : ℕ) : ℕ := bit_count v

/-- Embedding of `SRP_LSH::table_lookup` (src/srp_lsh.cc lines 162-167). -/
def table_lookup (x : ℕ) : ℕ :=
  table16 (x &&& 0xffff) + table16 ((x >>> 16) &&& 0xffff) +
    table16 ((x >>> 32) &&& 0xffff) + table16 ((x >>> 48) &&& 0xffff)

/-- Popcount by repeated halving, with structural fuel (so that the kernel
can evaluate it); `popAux f v` counts the 1 bits among the low `f` bits. -/
def popAux : ℕ → ℕ → ℕ
  | 0, _ => 0
  | f + 1, v => v % 2 + popAux f (v / 2)

theorem popAux_eq_onesCount : ∀ f v, popAux f v = onesCount f v := by
  intro f
  induction f with
  | zero => intro v; simp [popAux, onesCount]
  | succ f ih =>
    intro v
    rw [popAux, onesCount, List.range_succ_eq_map, List.countP_cons,
      List.countP_map]
    have h2 : ∀ j, v.testBit (j + 1) = (v / 2).testBit j := by
      intro j
      rw [Nat.add_comm j 1, ← Nat.testBit_shiftRight, Nat.shiftRight_one]
    have hbit : (fun j => v.testBit j) ∘ Nat.succ = fun j => (v / 2).testBit j := by
      funext j
      simp [Function.comp, Nat.succ_eq_add_one, h2 j]
    rw [hbit, ih (v / 2), onesCount]
    rcases Nat.mod_two_eq_zero_or_one v with h | h <;>
      simp [Nat.testBit_zero, h, Nat.add_comm]

/-! Correctness of the SWAR popcount `bit_count`, proved algebraically by
octal-digit decomposition (the three mask constants act independently on
each 3-bit group). -/

theorem testBit_add_mul_eight (a b : ℕ) (ha : a < 8) :
    ∀ i, (a + 8 * b).testBit i = if i < 3 then a.testBit i else b.testBit (i - 3) := by
  intro i
  match i with
  | 0 =>
    rw [if_pos (by omega), Nat.testBit_to_div_mod, Nat.testBit_to_div_mod,
      decide_eq_decide]
    omega
  | 1 =>
    rw [if_pos (by omega), Nat.testBit_to_div_mod, Nat.testBit_to_div_mod,
      decide_eq_decide]
    norm_num
    omega
  | 2 =>
    rw [if_pos (by omega), Nat.testBit_to_div_mod, Nat.testBit_to_div_mod,
      decide_eq_decide]
    norm_num
    omega
  | j + 3 =>
    rw [if_neg (by omega), Nat.testBit_to_div_mod, Nat.testBit_to_div_mod,
      decide_eq_decide, Nat.add_sub_cancel]
    have h8 : (a + 8 * b) / 8 = b := by omega
    have hd : (a + 8 * b) / 2 ^ (j + 3) = b / 2 ^ j := by
      rw [show (2:ℕ) ^ (j + 3) = 8 * 2 ^ j by ring, ← Nat.div_div_eq_div_mul, h8]
    rw [hd]

/-- Bitwise AND splits along the lowest octal digit. -/
theorem land_octet (x m y r : ℕ) (hx : x < 8) (hm : m < 8) :
    (x + 8 * y) &&& (m + 8 * r) = (x &&& m) + 8 * (y &&& r) := by
  have hxm : x &&& m < 8 := Nat.and_lt_two_pow x (show m < 2 ^ 3 from hm)
  apply Nat.eq_of_testBit_eq
  intro i
  rw [Nat.testBit_and, testBit_add_mul_eight x y hx, testBit_add_mul_eight m r hm,
    testBit_add_mul_eight (x &&& m) (y &&& r) hxm]
  by_cases h : i < 3
  · rw [if_pos h, if_pos h, if_pos h, Nat.testBit_and]
  · rw [if_neg h, if_neg h, if_neg h, Nat.testBit_and]

/-- Peel the lowest octal digit off both sides of an AND with a mask. -/
theorem land_peel (x M m R : ℕ) (hm : m < 8) (hM : M = m + 8 * R) :
    x &&& M = (x % 8 &&& m) + 8 * (x / 8 &&& R) := by
  conv_lhs => rw [← Nat.mod_add_div x 8, hM]
  exact land_octet _ _ _ _ (Nat.mod_lt x (by omega)) hm

theorem land_d3 : ∀ x, x < 8 → x &&& 3 = x % 4 := by decide
theorem land_d1 : ∀ x, x < 8 → x &&& 1 = x % 2 := by decide
theorem land_d7 : ∀ x, x < 8 → x &&& 7 = x := by decide

theorem land_mask3 (x : ℕ) (hx : x < 32768) :
    x &&& 0o33333333333 =
      x % 8 % 4 + 8 * (x / 8 % 8 % 4) + 64 * (x / 64 % 8 % 4) +
        512 * (x / 512 % 8 % 4) + 4096 * (x / 4096 % 8 % 4) := by
  rw [land_peel x _ 3 0o3333333333 (by norm_num) (by norm_num),
    land_peel (x / 8) _ 3 0o333333333 (by norm_num) (by norm_num),
    land_peel (x / 8 / 8) _ 3 0o33333333 (by norm_num) (by norm_num),
    land_peel (x / 8 / 8 / 8) _ 3 0o3333333 (by norm_num) (by norm_num),
    land_peel (x / 8 / 8 / 8 / 8) _ 3 0o333333 (by norm_num) (by norm_num)]
  have h0 : x / 8 / 8 / 8 / 8 / 8 = 0 := by omega
  rw [h0, Nat.zero_and,
    land_d3 _ (Nat.mod_lt x (by omega)),
    land_d3 _ (Nat.mod_lt _ (by omega)),
    land_d3 _ (Nat.mod_lt _ (by omega)),
    land_d3 _ (Nat.mod_lt _ (by omega)),
    land_d3 _ (Nat.mod_lt _ (by omega))]
  omega

theorem land_mask1 (x : ℕ) (hx : x < 32768) :
    x &&& 0o11111111111 =
      x % 8 % 2 + 8 * (x / 8 % 8 % 2) + 64 * (x / 64 % 8 % 2) +
        512 * (x / 512 % 8 % 2) + 4096 * (x / 4096 % 8 % 2) := by
  rw [land_peel x _ 1 0o1111111111 (by norm_num) (by norm_num),
    land_peel (x / 8) _ 1 0o111111111 (by norm_num) (by norm_num),
    land_peel (x / 8 / 8) _ 1 0o11111111 (by norm_num) (by norm_num),
    land_peel (x / 8 / 8 / 8) _ 1 0o1111111 (by norm_num) (by norm_num),
    land_peel (x / 8 / 8 / 8 / 8) _ 1 0o111111 (by norm_num) (by norm_num)]
  have h0 : x / 8 / 8 / 8 / 8 / 8 = 0 := by omega
  rw [h0, Nat.zero_and,
    land_d1 _ (Nat.mod_lt x (by omega)),
    land_d1 _ (Nat.mod_lt _ (by omega)),
    land_d1 _ (Nat.mod_lt _ (by omega)),
    land_d1 _ (Nat.mod_lt _ (by omega)),
    land_d1 _ (Nat.mod_lt _ (by omega))]
  omega

theorem land_mask707 (s : ℕ) (hs : s < 262144) :
    s &&& 0o30707070707 =
      s % 8 + 64 * (s / 64 % 8) + 4096 * (s / 4096 % 8) := by
  rw [land_peel s _ 7 0o3070707070 (by norm_num) (by norm_num),
    land_peel (s / 8) _ 0 0o307070707 (by norm_num) (by norm_num),
    land_peel (s / 8 / 8) _ 7 0o30707070 (by norm_num) (by norm_num),
    land_peel (s / 8 / 8 / 8) _ 0 0o3070707 (by norm_num) (by norm_num),
    land_peel (s / 8 / 8 / 8 / 8) _ 7 0o307070 (by norm_num) (by norm_num),
    land_peel (s / 8 / 8 / 8 / 8 / 8) _ 0 0o30707 (by norm_num) (by norm_num)]
  have h0 : s / 8 / 8 / 8 / 8 / 8 / 8 = 0 := by omega
  rw [h0, Nat.zero_and,
    land_d7 _ (Nat.mod_lt s (by omega)),
    land_d7 _ (Nat.mod_lt _ (by omega)),
    land_d7 _ (Nat.mod_lt _ (by omega)),
    Nat.and_zero, Nat.and_zero, Nat.and_zero]
  omega


/-- Extract one octal digit of a quotient: if `s = low + k * (d + 8 * rest)`
with `low < k` and `d < 8` then `s / k % 8 = d`. -/
theorem digit_div_mod (s low d rest k : ℕ) (hk : 0 < k)
    (hs : s = low + k * (d + 8 * rest)) (hlow : low < k) (hd : d < 8) :
    s / k % 8 = d := by
  subst hs
  rw [Nat.add_mul_div_left _ _ hk, Nat.div_eq_of_lt hlow, Nat.zero_add,
    Nat.add_mul_mod_self_left, Nat.mod_eq_of_lt hd]

theorem digit_mod (s d rest : ℕ) (hs : s = d + 8 * rest) (hd : d < 8) :
    s % 8 = d := by
  subst hs
  rw [Nat.add_mul_mod_self_left, Nat.mod_eq_of_lt hd]

theorem ea0 (v : ℕ) : v / 2 % 8 % 4 = v / 2 % 2 + 2 * (v / 4 % 2) := by omega
theorem ea1 (v : ℕ) : v / 2 / 8 % 8 % 4 = v / 16 % 2 + 2 * (v / 32 % 2) := by omega
theorem ea2 (v : ℕ) : v / 2 / 64 % 8 % 4 = v / 128 % 2 + 2 * (v / 256 % 2) := by omega
theorem ea3 (v : ℕ) : v / 2 / 512 % 8 % 4 = v / 1024 % 2 + 2 * (v / 2048 % 2) := by omega
theorem ea4 (v : ℕ) : v / 2 / 4096 % 8 % 4 = v / 8192 % 2 + 2 * (v / 16384 % 2) := by omega
theorem eb0 (v : ℕ) : v / 4 % 8 % 2 = v / 4 % 2 := by omega
theorem eb1 (v : ℕ) : v / 4 / 8 % 8 % 2 = v / 32 % 2 := by omega
theorem eb2 (v : ℕ) : v / 4 / 64 % 8 % 2 = v / 256 % 2 := by omega
theorem eb3 (v : ℕ) : v / 4 / 512 % 8 % 2 = v / 2048 % 2 := by omega
theorem eb4 (v : ℕ) : v / 4 / 4096 % 8 % 2 = v / 16384 % 2 := by omega

theorem sp0 (v : ℕ) : v % 8 = v % 2 + 2 * (v / 2 % 2) + 4 * (v / 4 % 2) := by omega
theorem sp1 (v : ℕ) : v / 8 % 8 = v / 8 % 2 + 2 * (v / 16 % 2) + 4 * (v / 32 % 2) := by omega
theorem sp2 (v : ℕ) : v / 64 % 8 = v / 64 % 2 + 2 * (v / 128 % 2) + 4 * (v / 256 % 2) := by
  omega
theorem sp3 (v : ℕ) : v / 512 % 8 = v / 512 % 2 + 2 * (v / 1024 % 2) + 4 * (v / 2048 % 2) := by
  omega
theorem sp4 (v : ℕ) :
    v / 4096 % 8 = v / 4096 % 2 + 2 * (v / 8192 % 2) + 4 * (v / 16384 % 2) := by omega
theorem sp5 (v : ℕ) (hv : v < 65536) : v / 32768 % 8 = v / 32768 % 2 := by omega

theorem vdig (v : ℕ) (hv : v < 65536) :
    v = v % 8 + 8 * (v / 8 % 8) + 64 * (v / 64 % 8) + 512 * (v / 512 % 8) +
      4096 * (v / 4096 % 8) + 32768 * (v / 32768 % 8) := by omega

/-- Binary decomposition of a 16-bit value, grouped by octal digits. -/
theorem bitsum16 (v : ℕ) (hv : v < 65536) :
    v = (v % 2 + 2 * (v / 2 % 2) + 4 * (v / 4 % 2)) +
      8 * (v / 8 % 2 + 2 * (v / 16 % 2) + 4 * (v / 32 % 2)) +
      64 * (v / 64 % 2 + 2 * (v / 128 % 2) + 4 * (v / 256 % 2)) +
      512 * (v / 512 % 2 + 2 * (v / 1024 % 2) + 4 * (v / 2048 % 2)) +
      4096 * (v / 4096 % 2 + 2 * (v / 8192 % 2) + 4 * (v / 16384 % 2)) +
      32768 * (v / 32768 % 2) := by
  conv_lhs => rw [vdig v hv]
  rw [sp0 v, sp1 v, sp2 v, sp3 v, sp4 v, sp5 v hv]

/-- The masked accumulation step of the SWAR popcount, over abstract bits. -/
theorem swar_assemble (v A B w a0 b0 c0 a1 b1 c1 a2 b2 c2 a3 b3 c3 a4 b4 c4 a5 : ℕ)
    (e0 : a0 < 2) (e1 : b0 < 2) (e2 : c0 < 2) (e3 : a1 < 2) (e4 : b1 < 2) (e5 : c1 < 2)
    (e6 : a2 < 2) (e7 : b2 < 2) (e8 : c2 < 2) (e9 : a3 < 2) (e10 : b3 < 2) (e11 : c3 < 2)
    (e12 : a4 < 2) (e13 : b4 < 2) (e14 : c4 < 2) (e15 : a5 < 2)
    (hv : v = (a0 + 2 * b0 + 4 * c0) + 8 * (a1 + 2 * b1 + 4 * c1) +
      64 * (a2 + 2 * b2 + 4 * c2) + 512 * (a3 + 2 * b3 + 4 * c3) +
      4096 * (a4 + 2 * b4 + 4 * c4) + 32768 * a5)
    (hA : A = (b0 + 2 * c0) + 8 * (b1 + 2 * c1) + 64 * (b2 + 2 * c2) +
      512 * (b3 + 2 * c3) + 4096 * (b4 + 2 * c4))
    (hB : B = c0 + 8 * c1 + 64 * c2 + 512 * c3 + 4096 * c4)
    (hw : w = v - A - B) :
    ((w + w / 8) &&& 0o30707070707) % 63 =
      a0 + b0 + c0 + a1 + b1 + c1 + a2 + b2 + c2 + a3 + b3 + c3 + a4 + b4 + c4 + a5 := by
  have hq : w = (a0 + b0 + c0) + 8 * (a1 + b1 + c1) + 64 * (a2 + b2 + c2) +
      512 * (a3 + b3 + c3) + 4096 * (a4 + b4 + c4) + 32768 * a5 := by omega
  have hwb : w < 65536 := by omega
  clear hv hA hB hw
  have hu : w / 8 = (a1 + b1 + c1) + 8 * (a2 + b2 + c2) + 64 * (a3 + b3 + c3) +
      512 * (a4 + b4 + c4) + 4096 * a5 := by omega
  have h7 := land_mask707 (w + w / 8) (by omega)
  rw [h7, hu]
  clear h7 hu hwb
  have hs0 : (w + ((a1 + b1 + c1) + 8 * (a2 + b2 + c2) + 64 * (a3 + b3 + c3) +
      512 * (a4 + b4 + c4) + 4096 * a5)) % 8 = a0 + b0 + c0 + (a1 + b1 + c1) :=
    digit_mod _ (a0 + b0 + c0 + (a1 + b1 + c1))
      ((a1 + b1 + c1 + (a2 + b2 + c2)) + 8 * (a2 + b2 + c2 + (a3 + b3 + c3)) +
        64 * (a3 + b3 + c3 + (a4 + b4 + c4)) + 512 * (a4 + b4 + c4 + a5) + 4096 * a5)
      (by omega) (by omega)
  have hs2 : (w + ((a1 + b1 + c1) + 8 * (a2 + b2 + c2) + 64 * (a3 + b3 + c3) +
      512 * (a4 + b4 + c4) + 4096 * a5)) / 64 % 8 = a2 + b2 + c2 + (a3 + b3 + c3) :=
    digit_div_mod _
      (a0 + b0 + c0 + (a1 + b1 + c1) + 8 * (a1 + b1 + c1 + (a2 + b2 + c2)))
      (a2 + b2 + c2 + (a3 + b3 + c3))
      (a3 + b3 + c3 + (a4 + b4 + c4) + 8 * (a4 + b4 + c4 + a5) + 64 * a5) 64
      (by omega) (by omega) (by omega) (by omega)
  have hs4 : (w + ((a1 + b1 + c1) + 8 * (a2 + b2 + c2) + 64 * (a3 + b3 + c3) +
      512 * (a4 + b4 + c4) + 4096 * a5)) / 4096 % 8 = a4 + b4 + c4 + a5 :=
    digit_div_mod _
      (a0 + b0 + c0 + (a1 + b1 + c1) + 8 * (a1 + b1 + c1 + (a2 + b2 + c2)) +
        64 * (a2 + b2 + c2 + (a3 + b3 + c3)) + 512 * (a3 + b3 + c3 + (a4 + b4 + c4)))
      (a4 + b4 + c4 + a5) a5 4096
      (by omega) (by omega) (by omega) (by omega)
  rw [hs0, hs2, hs4]
  clear hs0 hs2 hs4 hq
  omega

/-- `popAux 16` written as the flat sum of the sixteen bits. -/
theorem popAux16flat (v : ℕ) :
    popAux 16 v = v % 2 + v / 2 % 2 + v / 4 % 2 + v / 8 % 2 + v / 16 % 2 + v / 32 % 2 +
      v / 64 % 2 + v / 128 % 2 + v / 256 % 2 + v / 512 % 2 + v / 1024 % 2 + v / 2048 % 2 +
      v / 4096 % 2 + v / 8192 % 2 + v / 16384 % 2 + v / 32768 % 2 := by
  simp only [popAux, Nat.div_div_eq_div_mul]
  norm_num
  ring

set_option maxHeartbeats 1000000 in
theorem bit_count_correct : ∀ v, v < 65536 → bit_count v = onesCount 16 v := by
  intro v hv
  have hA3 := land_mask3 (v / 2) (by omega)
  have hB1 := land_mask1 (v / 4) (by omega)
  rw [ea0 v, ea1 v, ea2 v, ea3 v, ea4 v] at hA3
  rw [eb0 v, eb1 v, eb2 v, eb3 v, eb4 v] at hB1
  have key := swar_assemble v (v / 2 &&& 0o33333333333) (v / 4 &&& 0o11111111111)
    (v - (v / 2 &&& 0o33333333333) - (v / 4 &&& 0o11111111111))
    (v % 2) (v / 2 % 2) (v / 4 % 2) (v / 8 % 2) (v / 16 % 2) (v / 32 % 2)
    (v / 64 % 2) (v / 128 % 2) (v / 256 % 2) (v / 512 % 2) (v / 1024 % 2) (v / 2048 % 2)
    (v / 4096 % 2) (v / 8192 % 2) (v / 16384 % 2) (v / 32768 % 2)
    (Nat.mod_lt _ (by norm_num)) (Nat.mod_lt _ (by norm_num)) (Nat.mod_lt _ (by norm_num))
    (Nat.mod_lt _ (by norm_num)) (Nat.mod_lt _ (by norm_num)) (Nat.mod_lt _ (by norm_num))
    (Nat.mod_lt _ (by norm_num)) (Nat.mod_lt _ (by norm_num)) (Nat.mod_lt _ (by norm_num))
    (Nat.mod_lt _ (by norm_num)) (Nat.mod_lt _ (by norm_num)) (Nat.mod_lt _ (by norm_num))
    (Nat.mod_lt _ (by norm_num)) (Nat.mod_lt _ (by norm_num)) (Nat.mod_lt _ (by norm_num))
    (Nat.mod_lt _ (by norm_num))
    (bitsum16 v hv) hA3 hB1 rfl
  have hbc : bit_count v =
      ((v - (v / 2 &&& 0o33333333333) - (v / 4 &&& 0o11111111111) +
        (v - (v / 2 &&& 0o33333333333) - (v / 4 &&& 0o11111111111)) / 8) &&&
        0o30707070707) % 63 := by
    simp only [bit_count, Nat.shiftRight_eq_div_pow]
  rw [← popAux_eq_onesCount, hbc, key]
  exact (popAux16flat v).symm

/-! ## Signature packing (src/srp_lsh.cc, `SRP_LSH::compress_hash_code`) -/

/-- Embedding of the inner loop of `compress_hash_code` (src/srp_lsh.cc
lines 100-104): pack `size` sign bits starting at `shift` into one word,
most significant bit first (`val |= 1 << (63 - j)`). -/
def packWord (hc : ℕ → Bool) (shift size : ℕ) : ℕ :=
  (List.range size).foldl
    (fun val j => if hc (j + shift) then val ||| (1 <<< (63 - j)) else val) 0

/-- Embedding of `m_ = ceil(K / 64.0)` (src/srp_lsh.cc line 23). -/
def srpNumWords (K : ℕ) : ℕ := (K + 63) / 64

/-- Embedding of `size = (i == m_-1 && K_%64 != 0) ? (K_ % 64) : 64`
(src/srp_lsh.cc line 99). -/
def wordSize (K m i : ℕ) : ℕ := if i = m - 1 ∧ K % 64 ≠ 0 then K % 64 else 64

/-- Embedding of the outer loop of `compress_hash_code` (src/srp_lsh.cc
lines 98-107), with the running `shift` accumulator; `rem` counts the
remaining words so that the recursion is structural. -/
def compressAux (hc : ℕ → Bool) (K m : ℕ) : ℕ → ℕ → ℕ → List ℕ
  | _, _, 0 => []
  | i, shift, rem + 1 =>
    packWord hc shift (wordSize K m i) ::
      compressAux hc K m (i + 1) (shift + wordSize K m i) rem

/-- Embedding of `SRP_LSH::compress_hash_code` (src/srp_lsh.cc lines 93-109). -/
def compress_hash_code (K : ℕ) (hc : ℕ → Bool) : List ℕ :=
  compressAux hc K (srpNumWords K) 0 0 (srpNumWords K)

theorem packWord_testBit (hc : ℕ → Bool) (shift : ℕ) :
    ∀ size p, size ≤ 64 →
      (packWord hc shift size).testBit p =
        if 64 - size ≤ p ∧ p < 64 then hc (63 - p + shift) else false := by
  intro size
  induction size with
  | zero =>
    intro p _
    rw [show packWord hc shift 0 = 0 from rfl, Nat.zero_testBit, if_neg (by omega)]
  | succ s ih =>
    intro p hs
    have hstep : packWord hc shift (s + 1) =
        if hc (s + shift) then packWord hc shift s ||| (1 <<< (63 - s))
        else packWord hc shift s := by
      unfold packWord
      rw [List.range_succ, List.foldl_append]
      rfl
    rw [hstep]
    by_cases hcs : hc (s + shift) = true
    · rw [if_pos hcs, Nat.testBit_or, ih p (by omega), Nat.one_shiftLeft,
        Nat.testBit_two_pow]
      by_cases hp : p = 63 - s
      · subst hp
        rw [if_neg (by omega), if_pos (by omega), show 63 - (63 - s) = s by omega, hcs]
        simp
      · have hd : decide (63 - s = p) = false := by
          simp only [decide_eq_false_iff_not]
          omega
        rw [hd, Bool.or_false]
        by_cases hpc : 64 - s ≤ p ∧ p < 64
        · rw [if_pos hpc, if_pos (by omega)]
        · rw [if_neg hpc, if_neg (by omega)]
    · have hfalse : hc (s + shift) = false := by
        revert hcs
        cases hc (s + shift) <;> simp
      rw [if_neg hcs, ih p (by omega)]
      by_cases hpc : 64 - s ≤ p ∧ p < 64
      · rw [if_pos hpc, if_pos (by omega)]
      · rw [if_neg hpc]
        by_cases hp : p = 63 - s
        · subst hp
          rw [if_pos (by omega), show 63 - (63 - s) = s by omega, hfalse]
        · rw [if_neg (by omega)]

theorem packWord_lt (hc : ℕ → Bool) (shift : ℕ) :
    ∀ size, size ≤ 64 → packWord hc shift size < 2 ^ 64 := by
  intro size hsz
  by_contra h
  obtain ⟨i, hi, hbit⟩ :=
    Nat.ge_two_pow_implies_high_bit_true
      (show packWord hc shift size ≥ 2 ^ 64 by omega)
  rw [packWord_testBit hc shift size i hsz, if_neg (by omega)] at hbit
  exact Bool.false_ne_true hbit

theorem compressAux_length (hc : ℕ → Bool) (K m : ℕ) :
    ∀ rem i shift, (compressAux hc K m i shift rem).length = rem := by
  intro rem
  induction rem with
  | zero => intro i shift; rfl
  | succ r ih =>
    intro i shift
    rw [compressAux, List.length_cons, ih]

theorem compressAux_getD (hc : ℕ → Bool) (K m : ℕ) :
    ∀ rem i, i + rem = m → ∀ w, w < rem →
      (compressAux hc K m i (64 * i) rem).getD w 0 =
        packWord hc (64 * (i + w)) (wordSize K m (i + w)) := by
  intro rem
  induction rem with
  | zero => intro i _ w hw; omega
  | succ r ih =>
    intro i hi w hw
    rw [compressAux]
    match w with
    | 0 => rfl
    | w' + 1 =>
      rw [List.getD_cons_succ]
      have hws : wordSize K m i = 64 := by
        rw [wordSize, if_neg]
        rintro ⟨h1, _⟩
        omega
      rw [hws, show 64 * i + 64 = 64 * (i + 1) by ring]
      rw [ih (i + 1) (by omega) w' (by omega),
        show i + 1 + w' = i + (w' + 1) by ring]

theorem compress_getD (K : ℕ) (hc : ℕ → Bool) (w : ℕ) (hw : w < srpNumWords K) :
    (compress_hash_code K hc).getD w 0 =
      packWord hc (64 * w) (wordSize K (srpNumWords K) w) := by
  rw [compress_hash_code, show (0:ℕ) = 64 * 0 from rfl,
    compressAux_getD hc K (srpNumWords K) (srpNumWords K) 0 (by omega) w hw,
    Nat.zero_add]

theorem wordSize_le (K m i : ℕ) : wordSize K m i ≤ 64 := by
  rw [wordSize]
  split
  · exact Nat.le_of_lt (Nat.lt_of_lt_of_le (Nat.mod_lt K (by omega)) (by omega))
  · exact Nat.le_refl 64

/-- Count of a reflected predicate over `range s`. -/
theorem countP_range_reflect (s : ℕ) (d : ℕ → Bool) :
    (List.range s).countP (fun t => d (s - 1 - t)) = (List.range s).countP d := by
  have h1 : (List.range s).countP (fun t => d (s - 1 - t)) =
      ((List.range s).map (fun t => s - 1 - t)).countP d :=
    (List.countP_map d (fun t => s - 1 - t) (List.range s)).symm
  have h2 : (List.range s).map (fun t => s - 1 - t) = (List.range' 0 s).reverse := by
    rw [List.reverse_range']
    simp only [Nat.zero_add]
  rw [h1, h2, List.countP_reverse, ← List.range_eq_range']

theorem onesCount_slice (x s : ℕ) :
    onesCount 16 ((x >>> s) &&& 0xffff) =
      (List.range 16).countP (fun j => x.testBit (s + j)) := by
  unfold onesCount
  apply List.countP_congr
  intro j hj
  rw [List.mem_range] at hj
  rw [Nat.testBit_and, Nat.testBit_shiftRight,
    show (0xffff : ℕ) = 2 ^ 16 - 1 by norm_num, Nat.testBit_two_pow_sub_one]
  simp [hj]

theorem onesCount64_slices (x : ℕ) :
    onesCount 64 x = onesCount 16 (x &&& 0xffff) + onesCount 16 ((x >>> 16) &&& 0xffff) +
      onesCount 16 ((x >>> 32) &&& 0xffff) + onesCount 16 ((x >>> 48) &&& 0xffff) := by
  rw [show x &&& 0xffff = (x >>> 0) &&& 0xffff by rw [Nat.shiftRight_zero],
    onesCount_slice, onesCount_slice, onesCount_slice, onesCount_slice]
  unfold onesCount
  rw [show (64:ℕ) = 48 + 16 from rfl, List.range_add, List.countP_append, List.countP_map,
    show (48:ℕ) = 32 + 16 from rfl, List.range_add, List.countP_append, List.countP_map,
    show (32:ℕ) = 16 + 16 from rfl, List.range_add, List.countP_append, List.countP_map]
  have hz : (List.range 16).countP (fun j => x.testBit j) =
      (List.range 16).countP (fun j => x.testBit (0 + j)) :=
    List.countP_congr (fun a _ => by rw [Nat.zero_add])
  rw [hz]
  rfl

/-- C9: every entry of the precomputed table `table16_` equals the popcount
of its 16-bit index, and `table_lookup` consequently computes the popcount
of any 64-bit word as the sum of its four 16-bit slice lookups. -/
theorem table16_and_lookup_popcount :
    (∀ v, v < 65536 → table16 v = onesCount 16 v) ∧
    (∀ x, x < 2 ^ 64 → table_lookup x = onesCount 64 x) := by
  constructor
  · intro v hv
    exact bit_count_correct v hv
  · intro x _
    have m1 : ∀ y : ℕ, y &&& 0xffff < 65536 := fun y =>
      Nat.and_lt_two_pow y (show (0xffff:ℕ) < 2 ^ 16 by norm_num)
    rw [table_lookup, onesCount64_slices]
    unfold table16
    rw [bit_count_correct _ (m1 x), bit_count_correct _ (m1 (x >>> 16)),
      bit_count_correct _ (m1 (x >>> 32)), bit_count_correct _ (m1 (x >>> 48))]

/-- Witness for C9 at concrete inputs. -/
theorem table16_and_lookup_popcount_witness :
    table16 255 = onesCount 16 255 ∧ table_lookup (2 ^ 63) = onesCount 64 (2 ^ 63) :=
  ⟨table16_and_lookup_popcount.1 255 (by norm_num),
    table16_and_lookup_popcount.2 (2 ^ 63) (by norm_num)⟩

/-- C7: `compress_hash_code` produces exactly `ceil(K/64)` words; bit
`63 - j` of word `w` is sign bit `64*w + j` (most significant bit first),
and every bit position not covered by a sign bit is zero. -/
theorem compress_hash_code_layout (K : ℕ) (hK : 0 < K) (hc : ℕ → Bool) :
    (compress_hash_code K hc).length = (K + 63) / 64 ∧
    64 * ((compress_hash_code K hc).length - 1) < K ∧
    K ≤ 64 * (compress_hash_code K hc).length ∧
    ∀ w, w < srpNumWords K →
      (∀ j, j < wordSize K (srpNumWords K) w →
        ((compress_hash_code K hc).getD w 0).testBit (63 - j) = hc (64 * w + j)) ∧
      (∀ p, p < 64 - wordSize K (srpNumWords K) w ∨ 64 ≤ p →
        ((compress_hash_code K hc).getD w 0).testBit p = false) := by
  have hlen : (compress_hash_code K hc).length = (K + 63) / 64 :=
    compressAux_length hc K (srpNumWords K) (srpNumWords K) 0 0
  refine ⟨hlen, ?_, ?_, ?_⟩
  · rw [hlen]; omega
  · rw [hlen]; omega
  · intro w hw
    have hws := wordSize_le K (srpNumWords K) w
    rw [compress_getD K hc w hw]
    constructor
    · intro j hj
      rw [packWord_testBit hc (64 * w) (wordSize K (srpNumWords K) w) (63 - j) hws,
        if_pos (by omega), show 63 - (63 - j) = j by omega, Nat.add_comm]
    · intro p hp
      rw [packWord_testBit hc (64 * w) (wordSize K (srpNumWords K) w) p hws,
        if_neg (by omega)]

/-- Witness for C7 at `K = 65`. -/
theorem compress_hash_code_layout_witness :
    0 < 65 ∧ (compress_hash_code 65 (fun j => decide (j % 2 = 0))).length = (65 + 63) / 64 :=
  ⟨by norm_num, (compress_hash_code_layout 65 (by norm_num) (fun j => decide (j % 2 = 0))).1⟩

/-- Counterexample for C6 as stated: with `K = 65` and all sign bits true,
the final word of the packed signature is `2^63`; its meaningful sign bit
sits at bit position 63 (high order), not inside the low-order
`K mod 64 = 1` positions. -/
theorem compress_final_word_low_cex :
    ((compress_hash_code 65 (fun _ => true)).getD 1 0).testBit 63 = true ∧
    ¬ ((compress_hash_code 65 (fun _ => true)).getD 1 0 < 2 ^ (65 % 64)) := by
  constructor
  · decide
  · decide

/-- C6 amended: for `K` not a multiple of 64, the final packed word carries
its meaningful sign bits only in the high-order `K mod 64` bit positions
(bits `63` down to `64 - K mod 64`); all lower bits are zero, so during
Hamming scoring the XOR of two final words is zero outside those positions
and its popcount equals the number of differing sign bits among the final
`K mod 64` hash bits. -/
theorem compress_final_word_high_bits (K m : ℕ) (hK : K % 64 ≠ 0)
    (hm : m = (K + 63) / 64) (hc hc₂ : ℕ → Bool) (w1 w2 : ℕ)
    (hw1 : w1 = (compress_hash_code K hc).getD (m - 1) 0)
    (hw2 : w2 = (compress_hash_code K hc₂).getD (m - 1) 0) :
    (∀ p, p < 64 - K % 64 ∨ 64 ≤ p → w1.testBit p = false) ∧
    (∀ j, j < K % 64 → w1.testBit (63 - j) = hc (64 * (m - 1) + j)) ∧
    (∀ p, p < 64 - K % 64 ∨ 64 ≤ p → (w1 ^^^ w2).testBit p = false) ∧
    (∀ j, j < K % 64 → (w1 ^^^ w2).testBit (63 - j) =
      (hc (64 * (m - 1) + j) != hc₂ (64 * (m - 1) + j))) ∧
    onesCount 64 (w1 ^^^ w2) =
      (List.range (K % 64)).countP
        (fun j => hc (64 * (m - 1) + j) != hc₂ (64 * (m - 1) + j)) := by
  have hK0 : 0 < K := by omega
  have hmpos : 0 < m := by rw [hm]; omega
  have hwlast : wordSize K (srpNumWords K) (m - 1) = K % 64 := by
    rw [wordSize, if_pos]
    constructor
    · rw [hm, srpNumWords]
    · exact hK
  have hmod : K % 64 < 64 := Nat.mod_lt K (by omega)
  have hml : m - 1 < srpNumWords K := by rw [hm, srpNumWords]; omega
  have h1 : w1 = packWord hc (64 * (m - 1)) (K % 64) := by
    rw [hw1, compress_getD K hc (m - 1) hml, hwlast]
  have h2 : w2 = packWord hc₂ (64 * (m - 1)) (K % 64) := by
    rw [hw2, compress_getD K hc₂ (m - 1) hml, hwlast]
  have hb1 : ∀ p, w1.testBit p =
      if 64 - K % 64 ≤ p ∧ p < 64 then hc (63 - p + 64 * (m - 1)) else false := by
    intro p
    rw [h1, packWord_testBit hc (64 * (m - 1)) (K % 64) p (by omega)]
  have hb2 : ∀ p, w2.testBit p =
      if 64 - K % 64 ≤ p ∧ p < 64 then hc₂ (63 - p + 64 * (m - 1)) else false := by
    intro p
    rw [h2, packWord_testBit hc₂ (64 * (m - 1)) (K % 64) p (by omega)]
  refine ⟨?_, ?_, ?_, ?_, ?_⟩
  · intro p hp
    rw [hb1 p, if_neg (by omega)]
  · intro j hj
    rw [hb1 (63 - j), if_pos (by omega), show 63 - (63 - j) = j by omega,
      Nat.add_comm j (64 * (m - 1))]
  · intro p hp
    rw [Nat.testBit_xor, hb1 p, hb2 p, if_neg (by omega), if_neg (by omega)]
    rfl
  · intro j hj
    rw [Nat.testBit_xor, hb1 (63 - j), hb2 (63 - j), if_pos (by omega),
      if_pos (by omega), show 63 - (63 - j) = j by omega,
      Nat.add_comm j (64 * (m - 1))]
  · unfold onesCount
    have hsplit : List.range 64 = List.range (64 - K % 64) ++
        (List.range (K % 64)).map (fun t => 64 - K % 64 + t) := by
      rw [← List.range_add]
      congr 1
      omega
    rw [hsplit, List.countP_append]
    have hz : (List.range (64 - K % 64)).countP (fun j => (w1 ^^^ w2).testBit j) = 0 := by
      rw [List.countP_eq_zero]
      intro p hp
      rw [List.mem_range] at hp
      rw [Nat.testBit_xor, hb1 p, hb2 p, if_neg (by omega), if_neg (by omega)]
      decide
    rw [hz, Nat.zero_add, List.countP_map]
    have hcong : (List.range (K % 64)).countP
        ((fun j => (w1 ^^^ w2).testBit j) ∘ (fun t => 64 - K % 64 + t)) =
        (List.range (K % 64)).countP
          (fun t => (fun j => hc (64 * (m - 1) + j) != hc₂ (64 * (m - 1) + j))
            (K % 64 - 1 - t)) := by
      apply List.countP_congr
      intro t ht
      rw [List.mem_range] at ht
      show ((w1 ^^^ w2).testBit (64 - K % 64 + t) = true) ↔ _
      rw [Nat.testBit_xor, hb1 (64 - K % 64 + t), hb2 (64 - K % 64 + t),
        if_pos (by omega), if_pos (by omega),
        show 63 - (64 - K % 64 + t) + 64 * (m - 1) =
          64 * (m - 1) + (K % 64 - 1 - t) by omega]
    rw [hcong]
    exact countP_range_reflect (K % 64)
      (fun j => hc (64 * (m - 1) + j) != hc₂ (64 * (m - 1) + j))

/-- Witness for the amended C6 at `K = 65`. -/
theorem compress_final_word_high_bits_witness :
    (65 % 64 ≠ 0) ∧
    ((compress_hash_code 65 (fun _ => true)).getD 1 0 ^^^
      (compress_hash_code 65 (fun _ => false)).getD 1 0).testBit 63 =
      ((fun _ => true) (64 * 1 + 0) != (fun _ => false) (64 * 1 + 0)) := by
  refine ⟨by norm_num, ?_⟩
  have h := compress_final_word_high_bits 65 2 (by norm_num) (by norm_num)
    (fun _ => true) (fun _ => false)
    ((compress_hash_code 65 (fun _ => true)).getD 1 0)
    ((compress_hash_code 65 (fun _ => false)).getD 1 0) rfl rfl
  exact h.2.2.2.1 0 (by norm_num)

/-! ## Real vector primitives

Floating-point vectors are embedded as lists of reals. `calc_inner_product`
lives in `util.cc`, which is not among the sources; following §4.5 of the
spec it is modelled as the exact dot product of the two coordinate lists. -/

/-- Modelled from the spec: `calc_inner_product` (util.cc, not in src/)
computes the exact inner product of the original vectors (§4.5). -/
def ip : List ℝ → List ℝ → ℝ
  | x :: xs, y :: ys => x * y + ip xs ys
  | _, _ => 0

/-- Sum of squared coordinates. -/
def sumSq (xs : List ℝ) : ℝ := (xs.map (fun t => t * t)).sum

/-- Euclidean norm of a coordinate list (the precomputed `norm_d_[i][0]`). -/
noncomputable def euclidNorm (xs : List ℝ) : ℝ := Real.sqrt (sumSq xs)

theorem ip_eq_sum : ∀ xs ys : List ℝ,
    ip xs ys = ∑ i ∈ Finset.range (min xs.length ys.length),
      xs.getD i 0 * ys.getD i 0 := by
  intro xs
  induction xs with
  | nil => intro ys; cases ys <;> simp [ip]
  | cons x xs ih =>
    intro ys
    cases ys with
    | nil => simp [ip]
    | cons y ys =>
      rw [show ip (x :: xs) (y :: ys) = x * y + ip xs ys from rfl, ih ys,
        List.length_cons, List.length_cons, Nat.succ_min_succ,
        Finset.sum_range_succ']
      simp only [List.getD_cons_succ, List.getD_cons_zero]
      ring

theorem sumSq_eq (xs : List ℝ) :
    sumSq xs = ∑ i ∈ Finset.range xs.length, xs.getD i 0 ^ 2 := by
  induction xs with
  | nil => simp [sumSq]
  | cons x xs ih =>
    rw [show sumSq (x :: xs) = x * x + sumSq xs by simp [sumSq], ih,
      List.length_cons, Finset.sum_range_succ']
    simp only [List.getD_cons_succ, List.getD_cons_zero]
    ring

theorem sumSq_nonneg (xs : List ℝ) : 0 ≤ sumSq xs := by
  induction xs with
  | nil => simp [sumSq]
  | cons x xs ih =>
    rw [show sumSq (x :: xs) = x * x + sumSq xs by simp [sumSq]]
    have := mul_self_nonneg x
    linarith

theorem euclidNorm_nonneg (xs : List ℝ) : 0 ≤ euclidNorm xs :=
  Real.sqrt_nonneg _

theorem sumSq_append_single (xs : List ℝ) (t : ℝ) :
    sumSq (xs ++ [t]) = sumSq xs + t * t := by
  simp [sumSq]

theorem euclidNorm_sq (xs : List ℝ) : euclidNorm xs * euclidNorm xs = sumSq xs :=
  Real.mul_self_sqrt (sumSq_nonneg xs)

/-- Cauchy-Schwarz for coordinate lists. -/
theorem ip_le_norm_mul_norm (xs ys : List ℝ) :
    ip xs ys ≤ euclidNorm xs * euclidNorm ys := by
  rw [ip_eq_sum]
  have hcs := Real.sum_mul_le_sqrt_mul_sqrt
    (Finset.range (min xs.length ys.length))
    (fun i => xs.getD i 0) (fun i => ys.getD i 0)
  refine le_trans hcs ?_
  have h1 : ∑ i ∈ Finset.range (min xs.length ys.length), xs.getD i 0 ^ 2 ≤ sumSq xs := by
    rw [sumSq_eq]
    exact Finset.sum_le_sum_of_subset_of_nonneg
      (Finset.range_subset.mpr (Nat.min_le_left _ _))
      (fun i _ _ => sq_nonneg _)
  have h2 : ∑ i ∈ Finset.range (min xs.length ys.length), ys.getD i 0 ^ 2 ≤ sumSq ys := by
    rw [sumSq_eq]
    exact Finset.sum_le_sum_of_subset_of_nonneg
      (Finset.range_subset.mpr (Nat.min_le_right _ _))
      (fun i _ _ => sq_nonneg _)
  exact mul_le_mul (Real.sqrt_le_sqrt h1) (Real.sqrt_le_sqrt h2)
    (Real.sqrt_nonneg _) (Real.sqrt_nonneg _)

/-! ## H2-ALSH norm-blocking transform (src/h2_alsh.cc, `bulkload`)

`order` models the `Result` array after `qsort(..., ResultCompDesc)`: a
list of `(key, id)` pairs, `key` the precomputed norm `norm_d_[id][0]`,
sorted by non-increasing key (qsort's postcondition is carried as a
hypothesis because `ResultCompDesc` lives in util.cc, outside src/). -/

/-- One member of a block: data object id, its precomputed norm (`key_`),
and the `(d+1)`-dimensional lifted vector stored in `h2_alsh_data_`. -/
structure Entry where
  id : ℕ
  key : ℝ
  lifted : List ℝ

/-- One block (`Block` of h2_alsh.h): its maximum norm `M_` and its member
entries (`n_pts_` and `index_` are the length and the ids of `entries`). -/
structure Block where
  M : ℝ
  entries : List Entry

/-- Embedding of the inner `while` loop of `bulkload` (src/h2_alsh.cc lines
77-91): absorb points while the count stays below the cap `MAX_BLOCK_NUM`
and the norm is at least `m = M * b_`; each absorbed point's lifted vector
appends `sqrt(M_sqr - norm * norm)`. Returns the absorbed entries and the
remaining order. -/
noncomputable def absorb (data : ℕ → List ℝ) (cap : ℕ) (m M_sqr : ℝ) :
    List (ℝ × ℕ) → ℕ → List Entry × List (ℝ × ℕ)
  | [], _ => ([], [])
  | (key, id) :: rest, n =>
    if cap ≤ n then ([], (key, id) :: rest)
    else if key < m then ([], (key, id) :: rest)
    else
      (⟨id, key, data id ++ [Real.sqrt (M_sqr - key * key)]⟩ ::
        (absorb data cap m M_sqr rest (n + 1)).1,
        (absorb data cap m M_sqr rest (n + 1)).2)

/-- Embedding of the outer `while` loop of `bulkload` (src/h2_alsh.cc lines
71-111). When the inner loop absorbs no point the C loop repeats the same
state forever (the index `i` does not advance), so the model returns `none`
to mark that divergence; `fuel` only bounds the number of productive
iterations, one unit per block. -/
noncomputable def buildLoop (data : ℕ → List ℝ) (b : ℝ) (cap : ℕ) :
    ℕ → List (ℝ × ℕ) → Option (List Block)
  | _, [] => some []
  | 0, _ :: _ => none
  | fuel + 1, (key, id) :: rest =>
    if (absorb data cap (key * b) (key * key) ((key, id) :: rest) 0).1.isEmpty then
      none
    else
      (buildLoop data b cap fuel
          (absorb data cap (key * b) (key * key) ((key, id) :: rest) 0).2).map
        (fun bs =>
          ⟨key, (absorb data cap (key * b) (key * key) ((key, id) :: rest) 0).1⟩ :: bs)

/-- Embedding of `H2_ALSH::bulkload` (src/h2_alsh.cc lines 49-113) given the
sorted order: `b_ = sqrt((c0^4 - 1)/(c0^4 - c))` as at line 62, then the
block-forming loop. -/
noncomputable def bulkload (data : ℕ → List ℝ) (c0 c : ℝ) (cap : ℕ)
    (order : List (ℝ × ℕ)) : Option (List Block) :=
  buildLoop data (Real.sqrt ((c0 ^ 4 - 1) / (c0 ^ 4 - c))) cap order.length order

theorem absorb_spec (data : ℕ → List ℝ) (cap : ℕ) (m M_sqr : ℝ) :
    ∀ (order : List (ℝ × ℕ)) (n : ℕ),
      order = (absorb data cap m M_sqr order n).1.map (fun e => (e.key, e.id)) ++
          (absorb data cap m M_sqr order n).2 ∧
      ∀ e ∈ (absorb data cap m M_sqr order n).1,
        m ≤ e.key ∧ e.lifted = data e.id ++ [Real.sqrt (M_sqr - e.key * e.key)] := by
  intro order
  induction order with
  | nil =>
    intro n
    exact ⟨rfl, fun e he => absurd he (List.not_mem_nil e)⟩
  | cons p rest ih =>
    intro n
    obtain ⟨key, id⟩ := p
    by_cases h1 : cap ≤ n
    · rw [absorb, if_pos h1]
      exact ⟨rfl, fun e he => absurd he (List.not_mem_nil e)⟩
    · by_cases h2 : key < m
      · rw [absorb, if_neg h1, if_pos h2]
        exact ⟨rfl, fun e he => absurd he (List.not_mem_nil e)⟩
      · rw [absorb, if_neg h1, if_neg h2]
        obtain ⟨iha, ihb⟩ := ih (n + 1)
        constructor
        · simp only [List.map_cons, List.cons_append]
          exact congrArg (List.cons (key, id)) iha
        · intro e he
          rcases List.mem_cons.mp he with he | he
          · subst he
            exact ⟨le_of_not_lt h2, rfl⟩
          · exact ihb e he

theorem absorb_head (data : ℕ → List ℝ) (cap : ℕ) (m M_sqr key : ℝ) (id : ℕ)
    (rest : List (ℝ × ℕ))
    (hne : ¬(absorb data cap m M_sqr ((key, id) :: rest) 0).1.isEmpty = true) :
    ∃ e es, (absorb data cap m M_sqr ((key, id) :: rest) 0).1 = e :: es ∧
      e.key = key ∧ e.id = id := by
  obtain ⟨ha, _⟩ := absorb_spec data cap m M_sqr ((key, id) :: rest) 0
  cases habs : (absorb data cap m M_sqr ((key, id) :: rest) 0).1 with
  | nil => rw [habs] at hne; exact absurd rfl hne
  | cons e es =>
    rw [habs, List.map_cons, List.cons_append] at ha
    injection ha with h1 h2
    exact ⟨e, es, rfl, (congrArg Prod.fst h1).symm, (congrArg Prod.snd h1).symm⟩

theorem buildLoop_sound (data : ℕ → List ℝ) (b : ℝ) (cap : ℕ) :
    ∀ (fuel : ℕ) (order : List (ℝ × ℕ)) (bs : List Block),
      buildLoop data b cap fuel order = some bs →
      order = (bs.map (fun blk => blk.entries.map (fun e => (e.key, e.id)))).flatten ∧
      ∀ blk ∈ bs,
        (∃ e es, blk.entries = e :: es ∧ e.key = blk.M) ∧
        ∀ e ∈ blk.entries,
          blk.M * b ≤ e.key ∧
          e.lifted = data e.id ++ [Real.sqrt (blk.M * blk.M - e.key * e.key)] := by
  intro fuel
  induction fuel with
  | zero =>
    intro order bs hrun
    cases order with
    | nil =>
      rw [buildLoop] at hrun
      cases hrun
      exact ⟨rfl, fun blk h => absurd h (List.not_mem_nil blk)⟩
    | cons p rest => exact absurd hrun (by rw [buildLoop]; simp)
  | succ fuel ih =>
    intro order bs hrun
    cases order with
    | nil =>
      rw [buildLoop] at hrun
      cases hrun
      exact ⟨rfl, fun blk h => absurd h (List.not_mem_nil blk)⟩
    | cons p rest =>
      obtain ⟨key, id⟩ := p
      rw [buildLoop] at hrun
      by_cases hemp :
          (absorb data cap (key * b) (key * key) ((key, id) :: rest) 0).1.isEmpty
      · rw [if_pos hemp] at hrun
        exact absurd hrun (by simp)
      · rw [if_neg hemp, Option.map_eq_some'] at hrun
        obtain ⟨bs', hbs', hbs⟩ := hrun
        subst hbs
        obtain ⟨ha, hb'⟩ :=
          absorb_spec data cap (key * b) (key * key) ((key, id) :: rest) 0
        obtain ⟨iha, ihb⟩ := ih _ bs' hbs'
        constructor
        · rw [List.map_cons, List.flatten_cons, ← iha]
          exact ha
        · intro blk hblk
          rcases List.mem_cons.mp hblk with hblk | hblk
          · subst hblk
            obtain ⟨e, es, hes, hekey, _⟩ :=
              absorb_head data cap (key * b) (key * key) key id rest hemp
            exact ⟨⟨e, es, hes, hekey⟩, fun e he => hb' e he⟩
          · exact ihb blk hblk

theorem buildLoop_sorted (data : ℕ → List ℝ) (b : ℝ) (cap : ℕ) :
    ∀ (fuel : ℕ) (order : List (ℝ × ℕ)) (bs : List Block),
      List.Pairwise (fun x y : ℝ × ℕ => y.1 ≤ x.1) order →
      buildLoop data b cap fuel order = some bs →
      List.Pairwise (fun B B' : Block => B'.M ≤ B.M) bs ∧
      ∀ blk ∈ bs, ∀ e ∈ blk.entries, e.key ≤ blk.M := by
  intro fuel
  induction fuel with
  | zero =>
    intro order bs hsort hrun
    cases order with
    | nil =>
      rw [buildLoop] at hrun
      cases hrun
      exact ⟨List.Pairwise.nil, fun blk h => absurd h (List.not_mem_nil blk)⟩
    | cons p rest => exact absurd hrun (by rw [buildLoop]; simp)
  | succ fuel ih =>
    intro order bs hsort hrun
    cases order with
    | nil =>
      rw [buildLoop] at hrun
      cases hrun
      exact ⟨List.Pairwise.nil, fun blk h => absurd h (List.not_mem_nil blk)⟩
    | cons p rest =>
      obtain ⟨key, id⟩ := p
      rw [buildLoop] at hrun
      by_cases hemp :
          (absorb data cap (key * b) (key * key) ((key, id) :: rest) 0).1.isEmpty
      · rw [if_pos hemp] at hrun
        exact absurd hrun (by simp)
      · rw [if_neg hemp, Option.map_eq_some'] at hrun
        obtain ⟨bs', hbs', hbs⟩ := hrun
        subst hbs
        obtain ⟨ha, _⟩ :=
          absorb_spec data cap (key * b) (key * key) ((key, id) :: rest) 0
        obtain ⟨e0, es0, hes0, he0key, he0id⟩ :=
          absorb_head data cap (key * b) (key * key) key id rest hemp
        have hsort' := hsort
        rw [ha] at hsort'
        obtain ⟨hs1, hs2, hs3⟩ := List.pairwise_append.mp hsort'
        obtain ⟨ihp, ihe⟩ := ih _ bs' hs2 hbs'
        have hbound : ∀ e ∈
            (absorb data cap (key * b) (key * key) ((key, id) :: rest) 0).1,
            e.key ≤ key := by
          intro e he
          have hmem : (e.key, e.id) ∈
              (absorb data cap (key * b) (key * key) ((key, id) :: rest) 0).1.map
                (fun e => (e.key, e.id)) :=
            List.mem_map_of_mem _ he
          rw [hes0, List.map_cons, he0key] at hmem
          rcases List.mem_cons.mp hmem with hmem | hmem
          · exact le_of_eq (congrArg Prod.fst hmem)
          · rw [hes0, List.map_cons, he0key] at hs1
            exact (List.pairwise_cons.mp hs1).1 _ hmem
        have hMs : ∀ blk' ∈ bs', blk'.M ≤ key := by
          intro blk' hblk'
          obtain ⟨hhd, _⟩ := (buildLoop_sound data b cap fuel _ bs' hbs').2 blk' hblk'
          obtain ⟨e, es, hes, hkey⟩ := hhd
          have hmem : (e.key, e.id) ∈
              (bs'.map (fun blk => blk.entries.map (fun e => (e.key, e.id)))).flatten := by
            rw [List.mem_flatten]
            refine ⟨blk'.entries.map (fun e => (e.key, e.id)),
              List.mem_map_of_mem _ hblk', ?_⟩
            rw [hes, List.map_cons]
            exact List.mem_cons_self _ _
          rw [← (buildLoop_sound data b cap fuel _ bs' hbs').1] at hmem
          have hkid : ((key, id) : ℝ × ℕ) ∈
              (absorb data cap (key * b) (key * key) ((key, id) :: rest) 0).1.map
                (fun e => (e.key, e.id)) := by
            rw [hes0, List.map_cons, he0key, he0id]
            exact List.mem_cons_self _ _
          have := hs3 (key, id) hkid (e.key, e.id) hmem
          rw [← hkey]
          exact this
        constructor
        · rw [List.pairwise_cons]
          exact ⟨fun blk' hblk' => hMs blk' hblk', ihp⟩
        · intro blk hblk
          rcases List.mem_cons.mp hblk with hblk | hblk
          · subst hblk
            intro e he
            exact hbound e he
          · exact ihe blk hblk

theorem buildLoop_total (data : ℕ → List ℝ) (b : ℝ) (cap : ℕ)
    (hb : b ≤ 1) (hcap : 0 < cap) :
    ∀ (fuel : ℕ) (order : List (ℝ × ℕ)), (∀ p ∈ order, 0 < p.1) →
      order.length ≤ fuel →
      ∃ bs, buildLoop data b cap fuel order = some bs ∧
        ∀ blk ∈ bs, blk.entries ≠ [] := by
  intro fuel
  induction fuel with
  | zero =>
    intro order hpos hlen
    cases order with
    | nil =>
      exact ⟨[], by rw [buildLoop], fun blk h => absurd h (List.not_mem_nil _)⟩
    | cons p rest => simp at hlen
  | succ fuel ih =>
    intro order hpos hlen
    cases order with
    | nil =>
      exact ⟨[], by rw [buildLoop], fun blk h => absurd h (List.not_mem_nil _)⟩
    | cons p rest =>
      obtain ⟨key, id⟩ := p
      have hkey : 0 < key := hpos (key, id) (List.mem_cons_self _ _)
      have hnl : ¬ key < key * b := by
        have : key * b ≤ key * 1 := by
          apply mul_le_mul_of_nonneg_left hb (le_of_lt hkey)
        rw [mul_one] at this
        exact not_lt.mpr this
      have hne : ¬ (absorb data cap (key * b) (key * key)
          ((key, id) :: rest) 0).1.isEmpty = true := by
        rw [absorb, if_neg (by omega), if_neg hnl]
        simp
      have hsuffix :=
        (absorb_spec data cap (key * b) (key * key) ((key, id) :: rest) 0).1
      have hr1pos : 0 < (absorb data cap (key * b) (key * key)
          ((key, id) :: rest) 0).1.length := by
        cases habs : (absorb data cap (key * b) (key * key)
            ((key, id) :: rest) 0).1 with
        | nil => rw [habs] at hne; exact absurd rfl hne
        | cons _ _ => simp
      have hlen2 : (absorb data cap (key * b) (key * key)
          ((key, id) :: rest) 0).2.length ≤ rest.length := by
        have := congrArg List.length hsuffix
        rw [List.length_cons, List.length_append, List.length_map] at this
        omega
      have hposr : ∀ p ∈ (absorb data cap (key * b) (key * key)
          ((key, id) :: rest) 0).2, 0 < p.1 := by
        intro p hp
        apply hpos p
        rw [hsuffix]
        exact List.mem_append_right _ hp
      rw [List.length_cons] at hlen
      obtain ⟨bs', hbs', hne'⟩ := ih _ hposr (by omega)
      refine ⟨⟨key, (absorb data cap (key * b) (key * key)
          ((key, id) :: rest) 0).1⟩ :: bs', ?_, ?_⟩
      · rw [buildLoop, if_neg hne, hbs']
        rfl
      · intro blk hblk
        rcases List.mem_cons.mp hblk with hblk | hblk
        · subst hblk
          intro h
          apply hne
          have h' : (absorb data cap (key * b) (key * key)
              ((key, id) :: rest) 0).1 = [] := h
          rw [h']
          rfl
        · exact hne' blk hblk

/-- With `c0^4 > c` and `c ≤ 1`, the blocking factor `b` is at most 1. -/
theorem b_le_one (c0 c : ℝ) (h1 : c < c0 ^ 4) (h2 : c ≤ 1) :
    Real.sqrt ((c0 ^ 4 - 1) / (c0 ^ 4 - c)) ≤ 1 := by
  have hD : 0 < c0 ^ 4 - c := by linarith
  have hratio : (c0 ^ 4 - 1) / (c0 ^ 4 - c) ≤ 1 := by
    rw [div_le_one hD]
    linarith
  calc Real.sqrt ((c0 ^ 4 - 1) / (c0 ^ 4 - c))
      ≤ Real.sqrt 1 := Real.sqrt_le_sqrt hratio
    _ = 1 := Real.sqrt_one

/-- C1: every block member's stored lifted vector is the original
coordinates followed by `sqrt(M^2 - norm^2)`, and (when the precomputed
norms are the true Euclidean norms of the data) its Euclidean norm equals
the block maximum `M`. -/
theorem h2_lift_equal_norm (data : ℕ → List ℝ) (c0 c : ℝ) (cap : ℕ)
    (order : List (ℝ × ℕ)) (bs : List Block)
    (hrun : bulkload data c0 c cap order = some bs)
    (hsorted : List.Pairwise (fun x y : ℝ × ℕ => y.1 ≤ x.1) order)
    (hnorm : ∀ p ∈ order, p.1 = euclidNorm (data p.2)) :
    ∀ blk ∈ bs, ∀ e ∈ blk.entries,
      e.lifted = data e.id ++ [Real.sqrt (blk.M * blk.M - e.key * e.key)] ∧
      euclidNorm e.lifted = blk.M := by
  rw [bulkload] at hrun
  obtain ⟨hjoin, hsound⟩ := buildLoop_sound data _ cap order.length order bs hrun
  obtain ⟨_, hkeyle⟩ := buildLoop_sorted data _ cap order.length order bs hsorted hrun
  intro blk hblk e he
  have hlift := ((hsound blk hblk).2 e he).2
  refine ⟨hlift, ?_⟩
  have hpair : (e.key, e.id) ∈ order := by
    rw [hjoin, List.mem_flatten]
    exact ⟨blk.entries.map (fun e => (e.key, e.id)), List.mem_map_of_mem _ hblk,
      List.mem_map_of_mem _ he⟩
  have hkeynorm : e.key = euclidNorm (data e.id) := hnorm (e.key, e.id) hpair
  obtain ⟨e0, es0, hes0, he0key⟩ := (hsound blk hblk).1
  have hpair0 : (e0.key, e0.id) ∈ order := by
    rw [hjoin, List.mem_flatten]
    refine ⟨blk.entries.map (fun e => (e.key, e.id)), List.mem_map_of_mem _ hblk,
      List.mem_map_of_mem _ ?_⟩
    rw [hes0]
    exact List.mem_cons_self _ _
  have hM0 : 0 ≤ blk.M := by
    have h0 : e0.key = euclidNorm (data e0.id) := hnorm (e0.key, e0.id) hpair0
    rw [← he0key, h0]
    exact euclidNorm_nonneg _
  have hkey0 : 0 ≤ e.key := by
    rw [hkeynorm]
    exact euclidNorm_nonneg _
  have hkeyM : e.key ≤ blk.M := hkeyle blk hblk e he
  have hsq : sumSq (data e.id) = e.key * e.key := by
    rw [hkeynorm]
    exact (euclidNorm_sq _).symm
  have harg : 0 ≤ blk.M * blk.M - e.key * e.key := by
    have := mul_self_le_mul_self hkey0 hkeyM
    linarith
  rw [hlift, euclidNorm, sumSq_append_single, hsq, Real.mul_self_sqrt harg,
    show e.key * e.key + (blk.M * blk.M - e.key * e.key) = blk.M * blk.M by ring]
  exact Real.sqrt_mul_self hM0

/-- C2: after `bulkload`, the blocks' id lists together are a permutation of
all the ids `0, ..., n-1` (each id in exactly one block, none omitted). -/
theorem h2_partition (data : ℕ → List ℝ) (c0 c : ℝ) (cap n : ℕ)
    (order : List (ℝ × ℕ)) (bs : List Block)
    (hrun : bulkload data c0 c cap order = some bs)
    (hperm : (order.map Prod.snd).Perm (List.range n)) :
    ((bs.map (fun blk => blk.entries.map Entry.id)).flatten).Perm (List.range n) := by
  rw [bulkload] at hrun
  have h := (buildLoop_sound data _ cap order.length order bs hrun).1
  have hids : order.map Prod.snd =
      (bs.map (fun blk => blk.entries.map Entry.id)).flatten := by
    rw [h, List.map_flatten, List.map_map]
    congr 1
    apply List.map_congr_left
    intro blk _
    show (blk.entries.map (fun e => (e.key, e.id))).map Prod.snd =
      blk.entries.map Entry.id
    rw [List.map_map]
    rfl
  rw [← hids]
  exact hperm

/-- C3: block maxima are non-increasing in build order, and every member's
norm lies in `[M*b, M]` with `b = sqrt((c0^4-1)/(c0^4-c))`. -/
theorem h2_norm_monotonic (data : ℕ → List ℝ) (c0 c : ℝ) (cap : ℕ)
    (order : List (ℝ × ℕ)) (bs : List Block)
    (hrun : bulkload data c0 c cap order = some bs)
    (hsorted : List.Pairwise (fun x y : ℝ × ℕ => y.1 ≤ x.1) order)
    (hc : c < c0 ^ 4) :
    List.Pairwise (fun B B' : Block => B'.M ≤ B.M) bs ∧
    ∀ blk ∈ bs, ∀ e ∈ blk.entries,
      blk.M * Real.sqrt ((c0 ^ 4 - 1) / (c0 ^ 4 - c)) ≤ e.key ∧ e.key ≤ blk.M := by
  rw [bulkload] at hrun
  obtain ⟨hp, hkeyle⟩ := buildLoop_sorted data _ cap order.length order bs hsorted hrun
  obtain ⟨_, hsound⟩ := buildLoop_sound data _ cap order.length order bs hrun
  exact ⟨hp, fun blk hblk e he =>
    ⟨((hsound blk hblk).2 e he).1, hkeyle blk hblk e he⟩⟩

/-- C5: once a block's `M * ||query|| <= kip`, every member of that block
and of every later block has exact inner product with the query at most
`kip`, so stopping the block iteration there discards no candidate. -/
theorem h2_stop_rule (data : ℕ → List ℝ) (c0 c : ℝ) (cap : ℕ)
    (order : List (ℝ × ℕ)) (bs : List Block) (query : List ℝ) (normq kip : ℝ)
    (hrun : bulkload data c0 c cap order = some bs)
    (hsorted : List.Pairwise (fun x y : ℝ × ℕ => y.1 ≤ x.1) order)
    (hnorm : ∀ p ∈ order, p.1 = euclidNorm (data p.2))
    (hq : normq = euclidNorm query)
    (i j : ℕ) (hij : i ≤ j) (hj : j < bs.length)
    (hstop : (bs.get ⟨i, Nat.lt_of_le_of_lt hij hj⟩).M * normq ≤ kip) :
    ∀ e ∈ (bs.get ⟨j, hj⟩).entries, ip (data e.id) query ≤ kip := by
  rw [bulkload] at hrun
  obtain ⟨hjoin, hsound⟩ := buildLoop_sound data _ cap order.length order bs hrun
  obtain ⟨hpairw, hkeyle⟩ :=
    buildLoop_sorted data _ cap order.length order bs hsorted hrun
  intro e he
  have hblkj : bs.get ⟨j, hj⟩ ∈ bs := List.get_mem bs j hj
  have hkeyM : e.key ≤ (bs.get ⟨j, hj⟩).M := hkeyle _ hblkj e he
  have hMji : (bs.get ⟨j, hj⟩).M ≤ (bs.get ⟨i, Nat.lt_of_le_of_lt hij hj⟩).M := by
    rcases Nat.eq_or_lt_of_le hij with h | h
    · subst h
      exact le_refl _
    · exact List.pairwise_iff_get.mp hpairw ⟨i, Nat.lt_of_le_of_lt hij hj⟩ ⟨j, hj⟩
        (Fin.mk_lt_mk.mpr h)
  have hpair : (e.key, e.id) ∈ order := by
    rw [hjoin, List.mem_flatten]
    exact ⟨(bs.get ⟨j, hj⟩).entries.map (fun e => (e.key, e.id)),
      List.mem_map_of_mem _ hblkj, List.mem_map_of_mem _ he⟩
  have hkeynorm : e.key = euclidNorm (data e.id) := hnorm (e.key, e.id) hpair
  have hnormq : 0 ≤ normq := by
    rw [hq]
    exact euclidNorm_nonneg _
  calc ip (data e.id) query
      ≤ euclidNorm (data e.id) * euclidNorm query := ip_le_norm_mul_norm _ _
    _ = e.key * normq := by rw [hkeynorm, hq]
    _ ≤ (bs.get ⟨j, hj⟩).M * normq := mul_le_mul_of_nonneg_right hkeyM hnormq
    _ ≤ (bs.get ⟨i, Nat.lt_of_le_of_lt hij hj⟩).M * normq :=
        mul_le_mul_of_nonneg_right hMji hnormq
    _ ≤ kip := hstop

/-- C4 (amended): under the §7 preconditions strengthened with `c ≤ 1`
(equivalently, blocking factor `b ≤ 1`), `bulkload` terminates and every
block it creates is non-empty.  The block-size cap `MAX_BLOCK_NUM` (def.h,
outside src/) is any positive constant `cap`. -/
theorem h2_bulkload_terminates (data : ℕ → List ℝ) (c0 c : ℝ) (cap : ℕ)
    (order : List (ℝ × ℕ)) (hcap : 0 < cap)
    (hpos : ∀ p ∈ order, 0 < p.1) (hc : c < c0 ^ 4) (hc1 : c ≤ 1) :
    ∃ bs, bulkload data c0 c cap order = some bs ∧
      ∀ blk ∈ bs, blk.entries ≠ [] := by
  rw [bulkload]
  exact buildLoop_total data _ cap (b_le_one c0 c hc hc1) hcap order.length order
    hpos (le_refl _)

/-- Helper for counterexample and witnesses: `bulkload` on a one-point
dataset whose single norm is not below `key * b` produces one singleton
block. -/
theorem bulkload_singleton (data : ℕ → List ℝ) (c0 c : ℝ) (cap : ℕ)
    (key : ℝ) (id : ℕ) (hcap : 0 < cap)
    (hkey : ¬ key < key * Real.sqrt ((c0 ^ 4 - 1) / (c0 ^ 4 - c))) :
    bulkload data c0 c cap [(key, id)] =
      some [⟨key, [⟨id, key, data id ++ [Real.sqrt (key * key - key * key)]⟩]⟩] := by
  rw [bulkload]
  show buildLoop data _ cap (0 + 1) ((key, id) :: []) = _
  rw [buildLoop]
  have habs : absorb data cap (key * Real.sqrt ((c0 ^ 4 - 1) / (c0 ^ 4 - c)))
      (key * key) ((key, id) :: []) 0 =
      ([⟨id, key, data id ++ [Real.sqrt (key * key - key * key)]⟩], []) := by
    rw [absorb, if_neg (by omega), if_neg hkey]
    rfl
  rw [habs]
  show (if ([⟨id, key, data id ++ [Real.sqrt (key * key - key * key)]⟩] :
      List Entry).isEmpty = true then none
    else (buildLoop data (Real.sqrt ((c0 ^ 4 - 1) / (c0 ^ 4 - c))) cap 0 []).map _) = _
  rw [if_neg (by simp), buildLoop]
  rfl

/-- Counterexample for C4 as stated: with `c0 = 2`, `c = 2` the §7
preconditions hold (`c0^4 = 16 > 2 = c`, one point with norm `1 > 0`), yet
`b = sqrt(15/14) > 1`, the first point fails the norm test, the inner loop
absorbs nothing and the outer loop of the C code repeats the same state
forever; the model returns `none`. -/
theorem h2_bulkload_diverges_cex :
    (0:ℝ) < 1 ∧ (2:ℝ) < 2 ^ 4 ∧
    bulkload (fun _ => [(1:ℝ)]) 2 2 10 [((1:ℝ), 0)] = none := by
  refine ⟨by norm_num, by norm_num, ?_⟩
  have hb1 : (1:ℝ) < Real.sqrt (((2:ℝ) ^ 4 - 1) / ((2:ℝ) ^ 4 - 2)) := by
    rw [show ((2:ℝ) ^ 4 - 1) / ((2:ℝ) ^ 4 - 2) = 15 / 14 by norm_num]
    rw [show (1:ℝ) = Real.sqrt 1 by rw [Real.sqrt_one]]
    exact Real.sqrt_lt_sqrt (by norm_num) (by norm_num)
  rw [bulkload]
  show buildLoop (fun _ => [(1:ℝ)]) _ 10 (0 + 1) (((1:ℝ), 0) :: []) = none
  rw [buildLoop]
  have habs : absorb (fun _ => [(1:ℝ)]) 10
      (1 * Real.sqrt (((2:ℝ) ^ 4 - 1) / ((2:ℝ) ^ 4 - 2))) (1 * 1)
      (((1:ℝ), 0) :: []) 0 = ([], [((1:ℝ), 0)]) := by
    rw [absorb, if_neg (by omega), if_pos (by rw [one_mul]; exact hb1)]
  rw [habs]
  rfl

/-! ## L2-ALSH global asymmetric transform (src/l2_alsh.cc) -/

/-- Embedding of the max-norm scan of `L2_ALSH::bulkload` (src/l2_alsh.cc
lines 54-58): `M_` starts at `MINREAL` (a parameter here, since def.h is
outside src/) and is replaced whenever a strictly larger norm is seen. -/
noncomputable def l2maxNorm (minreal : ℝ) (norms : List ℝ) : ℝ :=
  norms.foldl (fun acc x => if acc < x then x else acc) minreal

/-- Embedding of the per-point transform of `L2_ALSH::bulkload`
(src/l2_alsh.cc lines 63-80): coordinate `j < d` is `x[j] * scale`;
coordinate `j ≥ d` is `(norm * scale) ^ (2 ^ (j - d + 1))` (the code first
rescales `norm[i] *= scale`, then uses `exponent = (int) pow(2, j-dim+1)`). -/
noncomputable def l2_transform_point (d m : ℕ) (scale : ℝ) (x : List ℝ) (nrm : ℝ) :
    List ℝ :=
  (List.range (d + m)).map (fun j =>
    if j < d then x.getD j 0 * scale else (nrm * scale) ^ 2 ^ (j - d + 1))

/-- Embedding of the query transform of `L2_ALSH::kmip` (src/l2_alsh.cc
lines 113-117): first `d` coordinates divided by the query norm, the `m`
extra coordinates all `0.5`. -/
noncomputable def l2_transform_query (d m : ℕ) (normq : ℝ) (q : List ℝ) : List ℝ :=
  (List.range (d + m)).map (fun j => if j < d then q.getD j 0 / normq else (0.5 : ℝ))

theorem getD_map_range (n j : ℕ) (f : ℕ → ℝ) (hj : j < n) :
    ((List.range n).map f).getD j 0 = f j := by
  have hlen : j < ((List.range n).map f).length := by simp [hj]
  rw [List.getD_eq_getElem _ _ hlen, List.getElem_map, List.getElem_range]

theorem l2max_basic : ∀ (norms : List ℝ) (init : ℝ),
    l2maxNorm init norms ∈ init :: norms ∧ init ≤ l2maxNorm init norms ∧
    ∀ t ∈ norms, t ≤ l2maxNorm init norms := by
  intro norms
  induction norms with
  | nil =>
    intro init
    exact ⟨List.mem_cons_self _ _, le_refl _, fun t ht => absurd ht (List.not_mem_nil t)⟩
  | cons a l ih =>
    intro init
    have hstep : l2maxNorm init (a :: l) =
        l2maxNorm (if init < a then a else init) l := rfl
    obtain ⟨hmem, hle, hub⟩ := ih (if init < a then a else init)
    rw [hstep]
    refine ⟨?_, ?_, ?_⟩
    · rcases List.mem_cons.mp hmem with h | h
      · by_cases hia : init < a
        · rw [if_pos hia] at h ⊢
          rw [h]
          exact List.mem_cons_of_mem _ (List.mem_cons_self _ _)
        · rw [if_neg hia] at h ⊢
          rw [h]
          exact List.mem_cons_self _ _
      · exact List.mem_cons_of_mem _ (List.mem_cons_of_mem _ h)
    · refine le_trans ?_ hle
      by_cases hia : init < a
      · rw [if_pos hia]
        exact le_of_lt hia
      · rw [if_neg hia]
    · intro t ht
      rcases List.mem_cons.mp ht with h | h
      · subst h
        refine le_trans ?_ hle
        by_cases hia : init < t
        · rw [if_pos hia]
        · rw [if_neg hia]
          exact not_lt.mp hia
      · exact hub t h

/-- C8: the L2-ALSH transforms follow the stated formulas: with
`scale = U/M` (`M` the dataset maximum norm), augmented data coordinate
`j < d` equals `x[j] * scale` and extra coordinate `e` equals
`(scale * norm)^(2^(e+1))`; the augmented query has its first `d`
coordinates divided by the query norm and all `m` extras equal to `0.5`. -/
theorem l2_transform_formulas (d m : ℕ) (U minreal : ℝ) (norms : List ℝ)
    (x q : List ℝ) (nrm normq : ℝ)
    (hne : norms ≠ []) (hmin : ∀ t ∈ norms, minreal ≤ t) :
    (l2maxNorm minreal norms ∈ norms ∧ ∀ t ∈ norms, t ≤ l2maxNorm minreal norms) ∧
    (∀ j, j < d →
      (l2_transform_point d m (U / l2maxNorm minreal norms) x nrm).getD j 0 =
        x.getD j 0 * (U / l2maxNorm minreal norms)) ∧
    (∀ e, e < m →
      (l2_transform_point d m (U / l2maxNorm minreal norms) x nrm).getD (d + e) 0 =
        (U / l2maxNorm minreal norms * nrm) ^ 2 ^ (e + 1)) ∧
    (∀ j, j < d → (l2_transform_query d m normq q).getD j 0 = q.getD j 0 / normq) ∧
    (∀ e, e < m → (l2_transform_query d m normq q).getD (d + e) 0 = (0.5 : ℝ)) := by
  obtain ⟨hmem, hinit, hub⟩ := l2max_basic norms minreal
  refine ⟨⟨?_, hub⟩, ?_, ?_, ?_, ?_⟩
  · rcases List.mem_cons.mp hmem with h | h
    · cases norms with
      | nil => exact absurd rfl hne
      | cons t ts =>
        have h1 : t ≤ l2maxNorm minreal (t :: ts) := hub t (List.mem_cons_self _ _)
        have h2 : minreal ≤ t := hmin t (List.mem_cons_self _ _)
        have h3 : l2maxNorm minreal (t :: ts) = t := by
          rw [h]
          exact le_antisymm h2 (h ▸ h1)
        rw [h3]
        exact List.mem_cons_self _ _
    · exact h
  · intro j hj
    rw [l2_transform_point, getD_map_range _ _ _ (by omega), if_pos hj]
  · intro e he
    rw [l2_transform_point, getD_map_range _ _ _ (by omega), if_neg (by omega),
      show d + e - d + 1 = e + 1 by omega, mul_comm]
  · intro j hj
    rw [l2_transform_query, getD_map_range _ _ _ (by omega), if_pos hj]
  · intro e he
    rw [l2_transform_query, getD_map_range _ _ _ (by omega), if_neg (by omega)]

/-! ## Candidate refinement with the bounded top-k accumulator
(`H2_ALSH::kmip`, src/h2_alsh.cc lines 182-191).  The accumulator
(`MaxK_List`, pri_queue.cc) is outside src/, so it is spec-modelled from
the §6 contract as an abstract structure whose `insert` returns the new
state together with the updated pruning threshold `kip`. -/

/-- Spec-modelled bounded top-k accumulator (§6): `insert score id st`
yields the new state and the threshold returned to the caller; `thr st`
is the current k-th best score (or the sentinel while not full); `full`
says the accumulator already holds k entries. -/
structure Accum (σ : Type) where
  insert : ℝ → ℕ → σ → σ × ℝ
  thr : σ → ℝ
  full : σ → Prop

/-- Embedding of the filtered refinement loop of `H2_ALSH::kmip`
(src/h2_alsh.cc lines 182-191): for each candidate `cj`, the data id is
`index[cand[j]]`; if `norm_d_[id][0] * normq > kip` the exact inner
product is inserted as `(ip, id + 1)` and `kip` is updated, otherwise the
candidate is skipped. -/
noncomputable def refineFiltered {σ : Type} (A : Accum σ) (index : ℕ → ℕ)
    (normScore ipScore : ℕ → ℝ) : List ℕ → σ → ℝ → σ × ℝ
  | [], st, kip => (st, kip)
  | cj :: rest, st, kip =>
    if kip < normScore (index cj) then
      refineFiltered A index normScore ipScore rest
        (A.insert (ipScore (index cj)) (index cj + 1) st).1
        (A.insert (ipScore (index cj)) (index cj + 1) st).2
    else refineFiltered A index normScore ipScore rest st kip

/-- The unfiltered reference loop: insert every candidate's exact inner
product, with no norm-based skip. -/
def refineAll {σ : Type} (A : Accum σ) (index : ℕ → ℕ)
    (ipScore : ℕ → ℝ) : List ℕ → σ → ℝ → σ × ℝ
  | [], st, kip => (st, kip)
  | cj :: rest, st, kip =>
    refineAll A index ipScore rest
      (A.insert (ipScore (index cj)) (index cj + 1) st).1
      (A.insert (ipScore (index cj)) (index cj + 1) st).2

/-- C10: under the §6 accumulator contract — inserting a score no larger
than the threshold of a full accumulator changes nothing (`h_noop`), the
returned `kip` is always the new state's threshold (`h_thr`), a non-full
accumulator's threshold is the sentinel (`h_sent`), and the sentinel lies
below every `norm * normq` score (`h_sent_lt`) — the filtered refinement
loop of `H2_ALSH::kmip` produces exactly the same final state and
threshold as inserting every candidate, because by Cauchy–Schwarz a
skipped candidate's exact inner product is at most `norm * normq ≤ kip`. -/
theorem refine_filter_equiv {σ : Type} (A : Accum σ) (index : ℕ → ℕ)
    (data : ℕ → List ℝ) (query : List ℝ) (normq sentinel : ℝ)
    (hq : normq = euclidNorm query)
    (h_noop : ∀ s i st, A.full st → s ≤ A.thr st → A.insert s i st = (st, A.thr st))
    (h_thr : ∀ s i st, (A.insert s i st).2 = A.thr (A.insert s i st).1)
    (h_sent : ∀ st, ¬ A.full st → A.thr st = sentinel)
    (h_sent_lt : ∀ id, sentinel < euclidNorm (data id) * normq) :
    ∀ (cands : List ℕ) (st : σ) (kip : ℝ), kip = A.thr st →
      refineFiltered A index (fun id => euclidNorm (data id) * normq)
          (fun id => ip (data id) query) cands st kip =
        refineAll A index (fun id => ip (data id) query) cands st kip := by
  intro cands
  induction cands with
  | nil => intro st kip hkip; rfl
  | cons cj rest ih =>
    intro st kip hkip
    rw [refineFiltered, refineAll]
    by_cases h : kip < euclidNorm (data (index cj)) * normq
    · rw [if_pos h]
      exact ih _ _ (h_thr _ _ _)
    · rw [if_neg h]
      push_neg at h
      have hfull : A.full st := by
        by_contra hnf
        have hs := h_sent st hnf
        rw [hkip, hs] at h
        exact absurd (lt_of_lt_of_le (h_sent_lt (index cj)) h) (lt_irrefl _)
      have hip : ip (data (index cj)) query ≤ A.thr st := by
        refine le_trans ?_ (hkip ▸ h)
        rw [hq]
        exact ip_le_norm_mul_norm _ _
      have hno : A.insert (ip (data (index cj)) query) (index cj + 1) st =
          (st, A.thr st) := h_noop _ _ st hfull hip
      rw [hno, hkip]
      exact ih st (A.thr st) rfl

/-! ## Concrete instances used by the witnesses -/

/-- One-point dataset: a single vector `[1]` in dimension 1. -/
def dataW : ℕ → List ℝ := fun _ => [1]

/-- The block list `bulkload` produces on that dataset with `c0 = 2`,
`c = 1`, `cap = 10`. -/
noncomputable def bsW : List Block :=
  [⟨1, [⟨0, 1, dataW 0 ++ [Real.sqrt (1 * 1 - 1 * 1)]⟩]⟩]

theorem euclidNorm_one : euclidNorm [(1 : ℝ)] = 1 := by
  rw [euclidNorm, show sumSq [(1 : ℝ)] = 1 by simp [sumSq], Real.sqrt_one]

theorem bsW_run : bulkload dataW 2 1 10 [((1 : ℝ), 0)] = some bsW := by
  have hkey : ¬ (1 : ℝ) < 1 * Real.sqrt (((2 : ℝ) ^ 4 - 1) / ((2 : ℝ) ^ 4 - 1)) := by
    rw [show ((2 : ℝ) ^ 4 - 1) / ((2 : ℝ) ^ 4 - 1) = 1 by norm_num, Real.sqrt_one,
      mul_one]
    exact lt_irrefl 1
  exact bulkload_singleton dataW 2 1 10 1 0 (by norm_num) hkey

theorem dataW_norm : ∀ p ∈ [((1 : ℝ), 0)], p.1 = euclidNorm (dataW p.2) := by
  intro p hp
  rw [List.mem_singleton] at hp
  subst hp
  show (1 : ℝ) = euclidNorm [(1 : ℝ)]
  rw [euclidNorm_one]

/-- Witness for C1: on the concrete one-point dataset the single entry's
lifted vector has Euclidean norm equal to its block's `M`. -/
theorem h2_lift_equal_norm_witness :
    bulkload dataW 2 1 10 [((1 : ℝ), 0)] = some bsW ∧
    euclidNorm (Entry.mk 0 1 (dataW 0 ++ [Real.sqrt (1 * 1 - 1 * 1)])).lifted = 1 := by
  refine ⟨bsW_run, ?_⟩
  have h := h2_lift_equal_norm dataW 2 1 10 [((1 : ℝ), 0)] bsW bsW_run
    (List.pairwise_singleton _ _) dataW_norm
  exact (h ⟨1, [⟨0, 1, dataW 0 ++ [Real.sqrt (1 * 1 - 1 * 1)]⟩]⟩
    (List.mem_singleton.mpr rfl) ⟨0, 1, dataW 0 ++ [Real.sqrt (1 * 1 - 1 * 1)]⟩
    (List.mem_singleton.mpr rfl)).2

/-- Witness for C2: on the concrete one-point dataset the block member ids
are a permutation of `range 1`. -/
theorem h2_partition_witness :
    bulkload dataW 2 1 10 [((1 : ℝ), 0)] = some bsW ∧
    ((bsW.map (fun blk => blk.entries.map Entry.id)).flatten).Perm (List.range 1) :=
  ⟨bsW_run, h2_partition dataW 2 1 10 1 [((1 : ℝ), 0)] bsW bsW_run
    (List.Perm.refl [0])⟩

/-- Witness for C3: on the concrete one-point dataset the block maxima are
pairwise non-increasing and the single member's norm lies in `[M*b, M]`. -/
theorem h2_norm_monotonic_witness :
    bulkload dataW 2 1 10 [((1 : ℝ), 0)] = some bsW ∧
    List.Pairwise (fun B B' : Block => B'.M ≤ B.M) bsW ∧
    (1 : ℝ) * Real.sqrt (((2 : ℝ) ^ 4 - 1) / ((2 : ℝ) ^ 4 - 1)) ≤ 1 ∧ (1 : ℝ) ≤ 1 := by
  have h := h2_norm_monotonic dataW 2 1 10 [((1 : ℝ), 0)] bsW bsW_run
    (List.pairwise_singleton _ _) (by norm_num)
  refine ⟨bsW_run, h.1, ?_, le_refl 1⟩
  exact (h.2 ⟨1, [⟨0, 1, dataW 0 ++ [Real.sqrt (1 * 1 - 1 * 1)]⟩]⟩
    (List.mem_singleton.mpr rfl) ⟨0, 1, dataW 0 ++ [Real.sqrt (1 * 1 - 1 * 1)]⟩
    (List.mem_singleton.mpr rfl)).1

/-- Witness for C4 (amended): at `c0 = 2`, `c = 1`, `cap = 10` and one
point of norm `1` the preconditions hold and `bulkload` terminates with
non-empty blocks. -/
theorem h2_bulkload_terminates_witness :
    0 < 10 ∧ (0 : ℝ) < 1 ∧ (1 : ℝ) < 2 ^ 4 ∧ (1 : ℝ) ≤ 1 ∧
    ∃ bs, bulkload dataW 2 1 10 [((1 : ℝ), 0)] = some bs ∧
      ∀ blk ∈ bs, blk.entries ≠ [] :=
  ⟨by norm_num, by norm_num, by norm_num, le_refl 1,
    h2_bulkload_terminates dataW 2 1 10 [((1 : ℝ), 0)] (by norm_num)
      (by
        intro p hp
        rw [List.mem_singleton] at hp
        subst hp
        exact one_pos)
      (by norm_num) (le_refl 1)⟩

/-- Witness for C5: on the concrete one-point dataset with query `[1]` and
`kip = 2`, the stop test holds at block 0 and the member's exact inner
product is indeed at most `kip`. -/
theorem h2_stop_rule_witness :
    bulkload dataW 2 1 10 [((1 : ℝ), 0)] = some bsW ∧
    ip (dataW 0) [(1 : ℝ)] ≤ 2 := by
  refine ⟨bsW_run, ?_⟩
  have h := h2_stop_rule dataW 2 1 10 [((1 : ℝ), 0)] bsW [(1 : ℝ)]
    (euclidNorm [(1 : ℝ)]) 2 bsW_run (List.pairwise_singleton _ _) dataW_norm rfl
    0 0 (le_refl 0) (by norm_num [bsW])
    (by
      show (1 : ℝ) * euclidNorm [(1 : ℝ)] ≤ 2
      rw [euclidNorm_one]
      norm_num)
  exact h ⟨0, 1, dataW 0 ++ [Real.sqrt (1 * 1 - 1 * 1)]⟩ (List.mem_singleton.mpr rfl)

/-- Witness for C8: concrete instance with `d = m = 1`, `U = 1/2`,
`minreal = 0`, one norm `1`, data point `[1]`, query `[1]`. -/
theorem l2_transform_formulas_witness :
    l2maxNorm 0 [(1 : ℝ)] ∈ [(1 : ℝ)] ∧
    (l2_transform_point 1 1 (1 / 2 / l2maxNorm 0 [(1 : ℝ)]) [(1 : ℝ)] 1).getD 0 0 =
      [(1 : ℝ)].getD 0 0 * (1 / 2 / l2maxNorm 0 [(1 : ℝ)]) ∧
    (l2_transform_point 1 1 (1 / 2 / l2maxNorm 0 [(1 : ℝ)]) [(1 : ℝ)] 1).getD 1 0 =
      (1 / 2 / l2maxNorm 0 [(1 : ℝ)] * 1) ^ 2 ^ 1 ∧
    (l2_transform_query 1 1 1 [(1 : ℝ)]).getD 0 0 = [(1 : ℝ)].getD 0 0 / 1 ∧
    (l2_transform_query 1 1 1 [(1 : ℝ)]).getD 1 0 = (0.5 : ℝ) := by
  have h := l2_transform_formulas 1 1 (1 / 2) 0 [(1 : ℝ)] [(1 : ℝ)] [(1 : ℝ)] 1 1
    (List.cons_ne_nil _ _)
    (by
      intro t ht
      rw [List.mem_singleton] at ht
      subst ht
      norm_num)
  exact ⟨h.1.1, h.2.1 0 (by norm_num), h.2.2.1 0 (by norm_num),
    h.2.2.2.1 0 (by norm_num), h.2.2.2.2 0 (by norm_num)⟩

/-- Toy accumulator satisfying the §6 contract: the state is the running
maximum score, `insert` keeps the larger of state and score, the threshold
is the state itself, and the accumulator counts as always full (`k = 1`
after the first insert of interest). -/
noncomputable def accW : Accum ℝ :=
  ⟨fun s _ st => if st < s then (s, s) else (st, st), fun st => st, fun _ => True⟩

/-- Witness for C10: on the toy accumulator, one candidate, data `[1]`,
query `[1]`, sentinel `-1`, the filtered and unfiltered loops agree. -/
theorem refine_filter_equiv_witness :
    refineFiltered accW (fun i => i)
      (fun id => euclidNorm (dataW id) * euclidNorm [(1 : ℝ)])
      (fun id => ip (dataW id) [(1 : ℝ)]) [0] 0 0 =
    refineAll accW (fun i => i) (fun id => ip (dataW id) [(1 : ℝ)]) [0] 0 0 := by
  refine refine_filter_equiv accW (fun i => i) dataW [(1 : ℝ)]
    (euclidNorm [(1 : ℝ)]) (-1) rfl ?_ ?_ ?_ ?_ [0] 0 0 rfl
  · intro s i st hfull hle
    have hle' : s ≤ st := hle
    show (if st < s then ((s : ℝ), (s : ℝ)) else (st, st)) = (st, st)
    rw [if_neg (not_lt.mpr hle')]
  · intro s i st
    show (if st < s then ((s : ℝ), (s : ℝ)) else (st, st)).2 =
      (if st < s then ((s : ℝ), (s : ℝ)) else (st, st)).1
    by_cases h : st < s
    · rw [if_pos h]
    · rw [if_neg h]
  · intro st hnf
    exact absurd trivial hnf
  · intro id
    show (-1 : ℝ) < euclidNorm (dataW id) * euclidNorm [(1 : ℝ)]
    rw [show dataW id = [(1 : ℝ)] from rfl, euclidNorm_one]
    norm_num

end H2ALSH
